import Mathlib

/-!
Shallow embedding of smcprime.h (smcPrime: deterministic 32/64-bit primality
testing with Montgomery arithmetic) and verification of its specification.

Machine integers are modelled as Nat with explicit reduction modulo 2^32 or
2^64 exactly where the C code wraps.  Bounded C loops are modelled by
structural recursion on an explicit fuel argument that provably dominates the
number of iterations the C loop can perform on its declared input domain, so
that every definition computes by kernel reduction.
-/

namespace SmcPrime

/-- Constant 2^32, the wrap modulus of the C type uint32_t. -/
def U32 : Nat := 2 ^ 32

/-- Constant 2^64, the wrap modulus of the C type uint64_t. -/
def U64 : Nat := 2 ^ 64

/-! ## 32-bit path -/

/-- Embedding of smc_mulmod32: (uint64_t)a * b % m, exact for a, b < 2^32. -/
def smc_mulmod32 (a b m : Nat) : Nat := a * b % m

/-- Loop body of smc_powmod32.  The C loop runs while b > 0, halving b each
iteration, so for b < 2^fuel the fuel is never exhausted and the first match
arm is dead code on the function's domain. -/
def powmodLoop32 (m : Nat) : Nat → Nat → Nat → Nat → Nat
  | 0, r, _, _ => r
  | fuel + 1, r, a, b =>
    if b = 0 then r
    else
      powmodLoop32 m fuel (if b % 2 = 1 then smc_mulmod32 r a m else r)
        (if b / 2 = 0 then a else smc_mulmod32 a a m) (b / 2)

/-- Embedding of smc_powmod32: binary exponentiation modulo m.  The C loop
skips the final squaring (the squaring is guarded by the updated b), which the
fourth argument of powmodLoop32 mirrors. -/
def smc_powmod32 (a b m : Nat) : Nat := powmodLoop32 m 32 1 (a % m) b

/-- Decomposition loop: repeatedly halve an even d, counting the steps.  The C
loop (while ((d & 1) == 0) d >>= 1, s++) terminates for every d > 0; fuel d
dominates the number of halvings.  (For d = 0 the C loop would not terminate;
that situation is unreachable because callers pass d = n - 1 with n odd > 2.) -/
def split2Loop : Nat → Nat → Nat × Nat
  | 0, d => (d, 0)
  | fuel + 1, d =>
    if d % 2 = 0 ∧ d ≠ 0 then
      let p := split2Loop fuel (d / 2)
      (p.1, p.2 + 1)
    else (d, 0)

/-- Decomposition n-1 = d * 2^s with d odd, as computed by both sprp variants. -/
def split2 (d : Nat) : Nat × Nat := split2Loop d d

/-- Loop body of the squaring phase of smc_sprp32: the for-loop over
r = 1 .. s-1, given here the remaining iteration count s - 1. -/
def sprpLoop32 (n : Nat) : Nat → Nat → Bool
  | _, 0 => false
  | x, k + 1 =>
    let x2 := smc_mulmod32 x x n
    if x2 = n - 1 then true
    else if x2 = 1 then false
    else sprpLoop32 n x2 k

/-- Embedding of smc_sprp32: one strong-Fermat round for witness a. -/
def smc_sprp32 (n a : Nat) : Bool :=
  if a % n = 0 then true
  else
    let ds := split2 (n - 1)
    let x := smc_powmod32 a ds.1 n
    if x = 1 ∨ x = n - 1 then true
    else sprpLoop32 n x (ds.2 - 1)

/-- Embedding of smc_is_prime32: deterministic 32-bit primality test with
witnesses 2, 7, 61 and the hard-coded pseudoprime 3215031751. -/
def smc_is_prime32 (n : Nat) : Bool :=
  if n < 2 then false
  else if n = 2 then true
  else if n % 2 = 0 then false
  else if n < 9 then true
  else if n % 3 = 0 then false
  else if n % 5 = 0 then false
  else if n % 7 = 0 then false
  else if n = 3215031751 then false
  else smc_sprp32 n 2 && smc_sprp32 n 7 && smc_sprp32 n 61

/-- Loop of smc_next_prime32.  The C loop increments by 2 (wrapping at 2^32)
and exits either at a prime or, after wrapping below 2, with the sentinel 0;
it therefore performs at most 2^31 + 1 iterations, so fuel 2^32 is never
exhausted on the u32 domain. -/
def nextLoop32 : Nat → Nat → Nat
  | 0, _ => 0
  | fuel + 1, n =>
    if smc_is_prime32 n then n
    else
      let n2 := (n + 2) % U32
      if n2 < 2 then 0 else nextLoop32 fuel n2

/-- Embedding of smc_next_prime32. -/
def smc_next_prime32 (n : Nat) : Nat :=
  if n ≤ 2 then 2
  else if n = 3 then 3
  else nextLoop32 U32 (if n % 2 = 0 then n + 1 else n)

/-- Loop of smc_prev_prime32: decrement by 2, returning 2 once n drops
below 3.  Starting from an odd n the loop runs at most n iterations. -/
def prevLoop32 : Nat → Nat → Nat
  | 0, _ => 0
  | fuel + 1, n =>
    if smc_is_prime32 n then n
    else if n < 3 then 2
    else prevLoop32 fuel (n - 2)

/-- Embedding of smc_prev_prime32. -/
def smc_prev_prime32 (n : Nat) : Nat :=
  if n < 2 then 0
  else if n = 2 then 2
  else prevLoop32 (if n % 2 = 0 then n - 1 else n) (if n % 2 = 0 then n - 1 else n)

/-! ## 64-bit path: Montgomery arithmetic -/

/-- Embedding of the table SMC_PRIME_INV64: the 66 constants of the source,
in source order. -/
def SMC_PRIME_INV64 : List Nat :=
  [0xAAAAAAAAAAAAAAAB, 0xCCCCCCCCCCCCCCCD, 0x6DB6DB6DB6DB6DB7, 0x2E8BA2E8BA2E8BA3,
   0x4EC4EC4EC4EC4EC5, 0xF0F0F0F0F0F0F0F1, 0x86BCA1AF286BCA1B, 0xD37A6F4DE9BD37A7,
   0x34F72C234F72C235, 0xEF7BDEF7BDEF7BDF, 0x14C1BACF914C1BAD, 0x8F9C18F9C18F9C19,
   0x82FA0BE82FA0BE83, 0x51B3BEA3677D46CF, 0x21CFB2B78C13521D, 0xCBEEA4E1A08AD8F3,
   0x4FBCDA3AC10C9715, 0xF0B7672A07A44C6B, 0x193D4BB7E327A977, 0x7E3F1F8FC7E3F1F9,
   0x9B8B577E613716AF, 0xA3784A062B2E43DB, 0xF47E8FD1FA3F47E9, 0xA3A0FD5C5F02A3A1,
   0x3A4C0A237C32B16D, 0xDAB7EC1DD3431B57, 0x77A04C8F8D28AC43, 0xA6C0964FDA6C0965,
   0x90FDBC090FDBC091, 0x7EFDFBF7EFDFBF7F, 0x03E88CB3C9484E2B, 0xE21A291C077975B9,
   0x3AEF6CA970586723, 0xDF5B0F768CE2CABD, 0x6FE4DFC9BF937F27, 0x5B4FE5E92C0685B5,
   0x1F693A1C451AB30B, 0x8D07AA27DB35A717, 0x882383B30D516325, 0xED6866F8D962AE7B,
   0x3454DCA410F8ED9D, 0x1D7CA632EE936F3F, 0x70BF015390948F41, 0xC96BDB9D3D137E0D,
   0x2697CC8AEF46C0F7, 0xC0E8F2A76E68575B, 0x687763DFDB43BB1F, 0x1B10EA929BA144CB,
   0x1D10C4C0478BBCED, 0x63FB9AEB1FDCD759, 0x64AFAA4F437B2E0F, 0xF010FEF010FEF011,
   0x28CBFBEB9A020A33, 0xFF00FF00FF00FF01, 0xD624FD1470E99CB7, 0x8FB3DDBD6205B5C5,
   0xD57DA36CA27ACDEF, 0xEE70C03B25E4463D, 0xC5B1A6B80749CB29, 0x47768073C9B97113,
   0x2591E94884CE32AD, 0xF02806ABC74BE1FB, 0x7EC3E8F3A7198487, 0x58550F8A39409D09,
   0xEC9E48AE6F71DE15, 0x2FF3A018BFCE8063]

/-- Primes 3 .. 331 in order: the moduli whose inverses the table holds
(stated by the header comment of SMC_PRIME_INV64 and verified below). -/
def SMC_TRIAL_PRIMES : List Nat :=
  [3, 5, 7, 11, 13, 17, 19, 23, 29, 31, 37, 41, 43, 47, 53, 59, 61, 67, 71, 73,
   79, 83, 89, 97, 101, 103, 107, 109, 113, 127, 131, 137, 139, 149, 151, 157,
   163, 167, 173, 179, 181, 191, 193, 197, 199, 211, 223, 227, 229, 233, 239,
   241, 251, 257, 263, 269, 271, 277, 281, 283, 293, 307, 311, 313, 317, 331]

/-- Round of Newton-Hensel lifting in smc_mont_inv64: est = (2 - est*n) * est
with all uint64 operations wrapping modulo 2^64.  The wrapping difference
2 - est*n is written (2^64 + 2 - (est*n mod 2^64)) mod 2^64, which agrees with
the C value for every est, n. -/
def montInvStep (n est : Nat) : Nat :=
  (U64 + 2 - est * n % U64) % U64 * est % U64

/-- Embedding of smc_mont_inv64: estimate (3*n) xor 2, then four Hensel
lifting rounds, all modulo 2^64. -/
def smc_mont_inv64 (n : Nat) : Nat :=
  montInvStep n (montInvStep n (montInvStep n (montInvStep n (3 * n % U64 ^^^ 2))))

/-- Embedding of smc_mont_reduce64 (the int128 branch).  t is the high half of
the 128-bit product m * n; the C expression x_hi - t + n wraps modulo 2^64 but,
because t < n always holds for m < 2^64, its value equals x_hi + n - t < 2^64,
which is what the first branch returns. -/
def smc_mont_reduce64 (x_lo x_hi n n_inv : Nat) : Nat :=
  let m := x_lo * n_inv % U64
  let t := m * n / U64
  if x_hi < t then x_hi + n - t else x_hi - t

/-- Embedding of smc_mont_mul64 (the int128 branch): full product split into
64-bit halves, then Montgomery reduction. -/
def smc_mont_mul64 (a b n n_inv : Nat) : Nat :=
  smc_mont_reduce64 (a * b % U64) (a * b / U64) n n_inv

/-- Embedding of smc_to_mont64 (the int128 branch): (x << 64) % n. -/
def smc_to_mont64 (x n : Nat) : Nat := x * U64 % n

/-- Embedding of smc_mont_one64: (UINT64_MAX % n) + 1. -/
def smc_mont_one64 (n : Nat) : Nat := (U64 - 1) % n + 1

/-- Loop of smc_mont_pow64.  The C loop runs while exp > 0, halving exp, hence
at most 64 iterations for exp < 2^64; fuel 64 is never exhausted there. -/
def montPowLoop (n n_inv : Nat) : Nat → Nat → Nat → Nat → Nat
  | 0, result, _, _ => result
  | fuel + 1, result, base, exp =>
    if exp = 0 then result
    else
      montPowLoop n n_inv fuel
        (if exp % 2 = 1 then smc_mont_mul64 result base n n_inv else result)
        (smc_mont_mul64 base base n n_inv) (exp / 2)

/-- Embedding of smc_mont_pow64: Montgomery square-and-multiply. -/
def smc_mont_pow64 (base exp n n_inv one : Nat) : Nat :=
  montPowLoop n n_inv 64 one base exp

/-- Loop body of the squaring phase of smc_mont_sprp64: the for-loop over
r = 1 .. s-1, given the remaining iteration count s - 1. -/
def sprpLoop64 (n n_inv one neg_one : Nat) : Nat → Nat → Bool
  | _, 0 => false
  | x, k + 1 =>
    let x2 := smc_mont_mul64 x x n n_inv
    if x2 = neg_one then true
    else if x2 = one then false
    else sprpLoop64 n n_inv one neg_one x2 k

/-- Embedding of smc_mont_sprp64: one strong-Fermat round in Montgomery form. -/
def smc_mont_sprp64 (n a n_inv one : Nat) : Bool :=
  let ds := split2 (n - 1)
  let a_mont := smc_to_mont64 (a % n) n
  if a_mont = 0 then true
  else
    let x := smc_mont_pow64 a_mont ds.1 n n_inv one
    let neg_one := n - one
    let neg_one := if neg_one ≥ n then neg_one - n else neg_one
    if x = one ∨ x = neg_one then true
    else sprpLoop64 n n_inv one neg_one x (ds.2 - 1)

/-- Trial-division loop of smc_is_prime64 over the inverse table: some true
means the n IS this prime return, some false the divisible return, none means
the loop ran to completion. -/
def trialLoop (n : Nat) : List Nat → Option Bool
  | [] => none
  | pinv :: rest =>
    if n * pinv % U64 = 1 then some true
    else if n * pinv % U64 < n then some false
    else trialLoop n rest

/-- Witness ladder of smc_is_prime64 (everything after the Montgomery setup),
parameterized by the context n_inv, one that the C function computes locally. -/
def mrLadder (n n_inv one : Nat) : Bool :=
  if !smc_mont_sprp64 n 2 n_inv one then false
  else if n < 2047 then true
  else if !smc_mont_sprp64 n 3 n_inv one then false
  else if n < 1373653 then true
  else if !smc_mont_sprp64 n 5 n_inv one then false
  else if n < 25326001 then true
  else if !smc_mont_sprp64 n 7 n_inv one then false
  else if n < 3215031751 then true
  else if n = 3215031751 then false
  else if !smc_mont_sprp64 n 11 n_inv one then false
  else if n < 2152302898747 then true
  else if !smc_mont_sprp64 n 13 n_inv one then false
  else if n < 3474749660383 then true
  else if !smc_mont_sprp64 n 17 n_inv one then false
  else if n < 341550071728321 then true
  else if !smc_mont_sprp64 n 19 n_inv one then false
  else if !smc_mont_sprp64 n 23 n_inv one then false
  else if n < 3825123056546413051 then true
  else if !smc_mont_sprp64 n 29 n_inv one then false
  else if !smc_mont_sprp64 n 31 n_inv one then false
  else if !smc_mont_sprp64 n 37 n_inv one then false
  else true

/-- Embedding of smc_is_prime64: trial division by prime inverses below the
overflow threshold (falling back to remainder checks above it), then the
deterministic Miller-Rabin witness ladder. -/
def smc_is_prime64 (n : Nat) : Bool :=
  if n < 2 then false
  else if n = 2 then true
  else if n % 2 = 0 then false
  else if n < 9 then true
  else if n < 55730344633563600 then
    match trialLoop n SMC_PRIME_INV64 with
    | some b => b
    | none =>
      if n < 109561 then true
      else mrLadder n (smc_mont_inv64 n) (smc_mont_one64 n)
  else
    if n % 3 = 0 then false
    else if n % 5 = 0 then false
    else if n % 7 = 0 then false
    else if n % 11 = 0 then false
    else if n % 13 = 0 then false
    else mrLadder n (smc_mont_inv64 n) (smc_mont_one64 n)

/-- Embedding of smc_is_prime64_wc: worst-case variant, no trial division,
full 12-witness ladder. -/
def smc_is_prime64_wc (n : Nat) : Bool :=
  if n < 2 then false
  else if n = 2 then true
  else if n % 2 = 0 then false
  else if n < 9 then true
  else if n = 3215031751 then false
  else
    [2, 3, 5, 7, 11, 13, 17, 19, 23, 29, 31, 37].all fun a =>
      smc_mont_sprp64 n a (smc_mont_inv64 n) (smc_mont_one64 n)

/-- Loop of smc_next_prime64; fuel 2^64 dominates the at most 2^63 + 1
iterations the wrapping C loop can perform. -/
def nextLoop64 : Nat → Nat → Nat
  | 0, _ => 0
  | fuel + 1, n =>
    if smc_is_prime64 n then n
    else
      let n2 := (n + 2) % U64
      if n2 < 2 then 0 else nextLoop64 fuel n2

/-- Embedding of smc_next_prime64. -/
def smc_next_prime64 (n : Nat) : Nat :=
  if n ≤ 2 then 2
  else if n = 3 then 3
  else nextLoop64 U64 (if n % 2 = 0 then n + 1 else n)

/-- Loop of smc_prev_prime64; starting from odd n the loop runs at most n
iterations before the n < 3 floor fires. -/
def prevLoop64 : Nat → Nat → Nat
  | 0, _ => 0
  | fuel + 1, n =>
    if smc_is_prime64 n then n
    else if n < 3 then 2
    else prevLoop64 fuel (n - 2)

/-- Embedding of smc_prev_prime64. -/
def smc_prev_prime64 (n : Nat) : Nat :=
  if n < 2 then 0
  else if n = 2 then 2
  else prevLoop64 (if n % 2 = 0 then n - 1 else n) (if n % 2 = 0 then n - 1 else n)

/-- Representation predicate of the Montgomery form used by the verification
layer: x is the Montgomery representative of the reduced residue v modulo n. -/
def MontRepr (n x v : Nat) : Prop :=
  x < n ∧ v < n ∧ x ≡ v * U64 [MOD n]

/-! ## Basic facts -/

lemma U64_pos : 0 < U64 := by norm_num [U64]

lemma U64_eq : U64 = 2 ^ 64 := rfl

/-- Bitwise xor commutes with truncation to the low k bits. -/
lemma mod_two_pow_xor (a b k : Nat) :
    (a ^^^ b) % 2 ^ k = a % 2 ^ k ^^^ b % 2 ^ k := by
  apply Nat.eq_of_testBit_eq
  intro i
  simp only [Nat.testBit_mod_two_pow, Nat.testBit_xor]
  by_cases h : i < k <;> simp [h]

/-! ## Correctness of smc_mont_inv64 (Newton-Hensel lifting) -/

/-- Base estimate: for odd n, (3*n) xor 2 is an inverse of n modulo 16. -/
lemma montInv_base (n : Nat) (h : n % 2 = 1) :
    n * (3 * n % U64 ^^^ 2) % 16 = 1 % 16 := by
  have key : ∀ m < 16, m % 2 = 1 → m * (3 * m % 16 ^^^ 2) % 16 = 1 := by decide
  have hdvd : (16 : Nat) ∣ U64 := ⟨2 ^ 60, by norm_num [U64]⟩
  have e1 : (3 * n % U64 ^^^ 2) % 16 = 3 * (n % 16) % 16 ^^^ 2 := by
    rw [show (16 : Nat) = 2 ^ 4 from rfl, mod_two_pow_xor,
      show ((2 : Nat) ^ 4) = 16 from rfl]
    rw [Nat.mod_mod_of_dvd _ hdvd, show (2 : Nat) % 16 = 2 from rfl,
      Nat.mul_mod 3 n 16, show (3 : Nat) % 16 = 3 from rfl]
  have h2 : n % 16 % 2 = 1 := by
    rw [Nat.mod_mod_of_dvd n (by norm_num : (2 : Nat) ∣ 16)]; exact h
  calc n * (3 * n % U64 ^^^ 2) % 16
      = n % 16 * ((3 * n % U64 ^^^ 2) % 16) % 16 := by rw [Nat.mul_mod]
    _ = n % 16 * (3 * (n % 16) % 16 ^^^ 2) % 16 := by rw [e1]
    _ = 1 := key (n % 16) (Nat.mod_lt _ (by norm_num)) h2
    _ = 1 % 16 := rfl

/-- Lifting round: an inverse of n modulo 2^k becomes an inverse modulo
2^(2k) after one step est = (2 - est*n) * est of wrapping arithmetic. -/
lemma montInvStep_lift (n est k : Nat) (hk : 1 ≤ k) (h2k : 2 * k ≤ 64)
    (h : n * est % 2 ^ k = 1 % 2 ^ k) :
    n * montInvStep n est % 2 ^ (2 * k) = 1 % 2 ^ (2 * k) := by
  have hU : ((2 : Int) ^ (2 * k)) ∣ ((U64 : Nat) : Int) := by
    rw [show ((U64 : Nat) : Int) = 2 ^ 64 by norm_num [U64]]
    exact pow_dvd_pow 2 h2k
  set e := est * n % U64 with he
  have heU : e ≤ U64 + 2 := le_trans (Nat.mod_lt _ U64_pos).le (by omega)
  have cast_mod_cong : ∀ a : Nat, ((a % U64 : Nat) : Int) ≡ (a : Int)
      [ZMOD (2 : Int) ^ (2 * k)] := by
    intro a
    rw [Int.natCast_mod]
    exact Int.emod_emod_of_dvd _ hU
  -- the step value is congruent to (2 - est*n) * est modulo 2^(2k)
  have hM : ((montInvStep n est : Nat) : Int) ≡
      (2 - (est : Int) * n) * est [ZMOD (2 : Int) ^ (2 * k)] := by
    have s1 : ((montInvStep n est : Nat) : Int) ≡
        (((U64 + 2 - e) % U64 : Nat) : Int) * est [ZMOD (2 : Int) ^ (2 * k)] := by
      have := cast_mod_cong ((U64 + 2 - e) % U64 * est)
      rwa [show (((U64 + 2 - e) % U64 * est : Nat) : Int) =
        (((U64 + 2 - e) % U64 : Nat) : Int) * est by push_cast; ring] at this
    have s2 : (((U64 + 2 - e) % U64 : Nat) : Int) ≡
        ((U64 : Nat) : Int) + 2 - e [ZMOD (2 : Int) ^ (2 * k)] := by
      refine (cast_mod_cong (U64 + 2 - e)).trans ?_
      rw [Nat.cast_sub heU]; push_cast; exact Int.ModEq.refl _
    have s3 : ((U64 : Nat) : Int) + 2 - (e : Int) ≡ 2 - (est : Int) * n
        [ZMOD (2 : Int) ^ (2 * k)] := by
      have hz : ((U64 : Nat) : Int) ≡ 0 [ZMOD (2 : Int) ^ (2 * k)] :=
        (Int.modEq_iff_dvd.mpr (by simpa using hU.neg_right)).symm
      have hez : (e : Int) ≡ (est : Int) * n [ZMOD (2 : Int) ^ (2 * k)] := by
        have := cast_mod_cong (est * n)
        rw [he]; push_cast at this ⊢; exact this
      have := (hz.add_right 2).sub hez
      simpa using this
    exact s1.trans ((s2.trans s3).mul_right _)
  -- Newton step: (2 - E) * E is 1 modulo 2^(2k) when E is 1 modulo 2^k
  have hdvdE : ((2 : Int) ^ k) ∣ ((n : Int) * est - 1) := by
    have := Nat.modEq_iff_dvd.mp (h : Nat.ModEq (2 ^ k) (n * est) 1)
    push_cast at this
    simpa using this.neg_right
  have hsq : ((2 : Int) ^ (2 * k)) ∣ ((n : Int) * est - 1) ^ 2 := by
    rw [show (2 : Int) ^ (2 * k) = (2 ^ k) * (2 ^ k) by rw [two_mul, pow_add],
      sq]
    exact mul_dvd_mul hdvdE hdvdE
  have hstep : ((n : Int) * ((2 - (est : Int) * n) * est)) ≡ 1
      [ZMOD (2 : Int) ^ (2 * k)] := by
    rw [Int.modEq_iff_dvd]
    have : (1 : Int) - (n : Int) * ((2 - (est : Int) * n) * est) =
        ((n : Int) * est - 1) ^ 2 := by ring
    rw [this]; exact hsq
  have final : ((n * montInvStep n est : Nat) : Int) ≡ 1
      [ZMOD (2 : Int) ^ (2 * k)] := by
    calc ((n * montInvStep n est : Nat) : Int)
        = (n : Int) * ((montInvStep n est : Nat) : Int) := by push_cast; ring
      _ ≡ (n : Int) * ((2 - (est : Int) * n) * est)
          [ZMOD (2 : Int) ^ (2 * k)] := hM.mul_left _
      _ ≡ 1 [ZMOD (2 : Int) ^ (2 * k)] := hstep
  have := Int.ModEq.dvd final
  refine (Nat.modEq_iff_dvd).mpr ?_
  push_cast at this ⊢
  simpa using this

/-- Main inverse property of smc_mont_inv64: for odd n the result is the
multiplicative inverse of n modulo 2^64. -/
lemma smc_mont_inv64_spec (n : Nat) (h : n % 2 = 1) :
    n * smc_mont_inv64 n % U64 = 1 := by
  have h4 : n * (3 * n % U64 ^^^ 2) % 2 ^ 4 = 1 % 2 ^ 4 := montInv_base n h
  have h8 := montInvStep_lift n _ 4 (by norm_num) (by norm_num) h4
  have h16 := montInvStep_lift n _ 8 (by norm_num) (by norm_num) h8
  have h32 := montInvStep_lift n _ 16 (by norm_num) (by norm_num) h16
  have h64 := montInvStep_lift n _ 32 (by norm_num) (by norm_num) h32
  have : n * smc_mont_inv64 n % 2 ^ 64 = 1 % 2 ^ 64 := h64
  simpa [U64_eq] using this

/-! ## Correctness of smc_mont_reduce64 and smc_mont_mul64 -/

/-- Core shape of Montgomery reduction: if U64 * t + x_lo = m * n with
m < 2^64 and the input is below n * 2^64, the conditional difference is an
exact representative of x * 2^(-64) below n. -/
lemma mont_reduce_core (n m t x_lo x_hi : Nat) (hn : 0 < n)
    (hdm : U64 * t + x_lo = m * n) (hmlt : m < U64)
    (hx : x_hi * U64 + x_lo < n * U64) :
    (if x_hi < t then x_hi + n - t else x_hi - t) * U64 % n
        = (x_hi * U64 + x_lo) % n ∧
    (if x_hi < t then x_hi + n - t else x_hi - t) < n := by
  have hmn_lt : m * n < U64 * n := mul_lt_mul_of_pos_right hmlt hn
  have htn : t < n := by
    have h2 : U64 * t < U64 * n := by omega
    exact lt_of_mul_lt_mul_left h2 (Nat.zero_le _)
  by_cases hcase : x_hi < t
  · simp only [if_pos hcase]
    have htle : t ≤ x_hi + n := by omega
    have e1 : (x_hi + n - t) * U64 + (U64 * t + x_lo) =
        x_hi * U64 + x_lo + n * U64 := by zify [htle]; ring
    constructor
    · calc (x_hi + n - t) * U64 % n
          = ((x_hi + n - t) * U64 + m * n) % n := (Nat.add_mul_mod_self_right _ m n).symm
        _ = (x_hi * U64 + x_lo + n * U64) % n := by rw [← hdm, e1]
        _ = (x_hi * U64 + x_lo) % n := by
            rw [show x_hi * U64 + x_lo + n * U64 = x_hi * U64 + x_lo + U64 * n by ring,
              Nat.add_mul_mod_self_right]
    · omega
  · simp only [if_neg hcase]
    have htle : t ≤ x_hi := by omega
    have e2 : (x_hi - t) * U64 + (U64 * t + x_lo) = x_hi * U64 + x_lo := by
      zify [htle]; ring
    constructor
    · calc (x_hi - t) * U64 % n
          = ((x_hi - t) * U64 + m * n) % n := (Nat.add_mul_mod_self_right _ m n).symm
        _ = (x_hi * U64 + x_lo) % n := by rw [← hdm, e2]
    · have hlt : (x_hi - t) * U64 < n * U64 := by omega
      exact Nat.lt_of_mul_lt_mul_right hlt

/-- Correctness of smc_mont_reduce64: with a valid Montgomery context the
result r satisfies r * 2^64 congruent to x modulo n and r < n whenever the
128-bit input x is below n * 2^64. -/
lemma mont_reduce64_spec (n n_inv x_lo x_hi : Nat) (hn : 0 < n)
    (hinv : n * n_inv % U64 = 1) (hlo : x_lo < U64)
    (hx : x_hi * U64 + x_lo < n * U64) :
    smc_mont_reduce64 x_lo x_hi n n_inv * U64 % n = (x_hi * U64 + x_lo) % n ∧
    smc_mont_reduce64 x_lo x_hi n n_inv < n := by
  have hU1 : 1 < U64 := by norm_num [U64]
  have hmlt : x_lo * n_inv % U64 < U64 := Nat.mod_lt _ U64_pos
  have h2 : n * n_inv ≡ 1 [MOD U64] := by
    show n * n_inv % U64 = 1 % U64
    rw [hinv, Nat.mod_eq_of_lt hU1]
  have h3 : x_lo * n_inv * n ≡ x_lo [MOD U64] := by
    calc x_lo * n_inv * n = x_lo * (n * n_inv) := by ring
      _ ≡ x_lo * 1 [MOD U64] := h2.mul_left x_lo
      _ = x_lo := mul_one x_lo
  have h4 : x_lo * n_inv % U64 * n ≡ x_lo [MOD U64] :=
    ((Nat.mod_modEq _ _).mul_right n).trans h3
  have hmn_mod : x_lo * n_inv % U64 * n % U64 = x_lo := by
    have h5 : x_lo * n_inv % U64 * n % U64 = x_lo % U64 := h4
    rwa [Nat.mod_eq_of_lt hlo] at h5
  have hdm : U64 * (x_lo * n_inv % U64 * n / U64) + x_lo =
      x_lo * n_inv % U64 * n := by
    have h6 := Nat.div_add_mod (x_lo * n_inv % U64 * n) U64
    rw [hmn_mod] at h6
    exact h6
  exact mont_reduce_core n (x_lo * n_inv % U64) (x_lo * n_inv % U64 * n / U64)
    x_lo x_hi hn hdm hmlt hx

/-- Correctness of smc_mont_mul64 on reduced operands. -/
lemma mont_mul64_spec (n n_inv a b : Nat) (hn : 0 < n) (hnU : n < U64)
    (hinv : n * n_inv % U64 = 1) (ha : a < n) (hb : b < n) :
    smc_mont_mul64 a b n n_inv * U64 % n = a * b % n ∧
    smc_mont_mul64 a b n n_inv < n := by
  have hsplit : a * b / U64 * U64 + a * b % U64 = a * b := by
    rw [mul_comm (a * b / U64) U64]
    exact Nat.div_add_mod _ _
  have habn : a * b < n * U64 := by
    have h1 : a * b < n * n := mul_lt_mul'' ha hb (Nat.zero_le a) (Nat.zero_le b)
    have h2 : n * n ≤ n * U64 := Nat.mul_le_mul_left n hnU.le
    omega
  have hx : a * b / U64 * U64 + a * b % U64 < n * U64 := by omega
  have := mont_reduce64_spec n n_inv (a * b % U64) (a * b / U64) hn hinv
    (Nat.mod_lt _ U64_pos) hx
  rw [hsplit] at this
  exact this

/-! ## Correctness of smc_mont_one64 -/

/-- Odd n at least 3 never divides 2^64. -/
lemma odd_not_dvd_U64 (n : Nat) (h3 : 3 ≤ n) (hodd : n % 2 = 1) : ¬ n ∣ U64 := by
  intro hdvd
  have hgcd : Nat.gcd 2 n = 1 := by rw [Nat.gcd_rec]; simp [hodd]
  have hcop : Nat.Coprime n 2 := Nat.coprime_comm.mp hgcd
  have hcop64 : Nat.Coprime n U64 := by
    rw [U64_eq]; exact Nat.Coprime.pow_right _ hcop
  have := Nat.Coprime.eq_one_of_dvd hcop64 hdvd
  omega

/-- Value and range of smc_mont_one64 for odd n at least 3: it equals
2^64 mod n and lies strictly between 0 and n. -/
lemma mont_one64_spec (n : Nat) (h3 : 3 ≤ n) (hodd : n % 2 = 1) :
    smc_mont_one64 n = U64 % n ∧ 1 ≤ smc_mont_one64 n ∧ smc_mont_one64 n < n := by
  have hn0 : 0 < n := by omega
  have hmod_lt : U64 % n < n := Nat.mod_lt _ hn0
  have hmod_pos : 0 < U64 % n := by
    rcases Nat.eq_zero_or_pos (U64 % n) with h0 | h
    · exact absurd (Nat.dvd_iff_mod_eq_zero.mpr h0) (odd_not_dvd_U64 n h3 hodd)
    · exact h
  have hda := Nat.div_add_mod U64 n
  have key : (U64 - 1) % n = U64 % n - 1 := by
    have h1 : U64 - 1 = n * (U64 / n) + (U64 % n - 1) := by omega
    rw [h1, Nat.mul_add_mod, Nat.mod_eq_of_lt (by omega)]
  unfold smc_mont_one64
  rw [key]
  omega

/-! ## Montgomery representation layer -/

lemma coprime_U64 (n : Nat) (hodd : n % 2 = 1) : Nat.Coprime U64 n := by
  rw [U64_eq]
  apply Nat.Coprime.pow_left
  show Nat.gcd 2 n = 1
  rw [Nat.gcd_rec]; simp [hodd]

lemma modeq_eq_of_lt {n a b : Nat} (h : a ≡ b [MOD n]) (ha : a < n) (hb : b < n) :
    a = b := by
  have h2 : a % n = b % n := h
  rwa [Nat.mod_eq_of_lt ha, Nat.mod_eq_of_lt hb] at h2

lemma mont_cancel (n a b : Nat) (hodd : n % 2 = 1)
    (h : a * U64 ≡ b * U64 [MOD n]) : a ≡ b [MOD n] :=
  Nat.ModEq.cancel_right_of_coprime (Nat.coprime_comm.mp (coprime_U64 n hodd)) h

lemma montRepr_eq_iff {n x y u v : Nat} (hodd : n % 2 = 1)
    (hx : MontRepr n x u) (hy : MontRepr n y v) : x = y ↔ u = v := by
  obtain ⟨hx1, hu, hx2⟩ := hx
  obtain ⟨hy1, hv, hy2⟩ := hy
  constructor
  · intro he
    have h1 : u * U64 ≡ v * U64 [MOD n] := (hx2.symm.trans (he ▸ hy2))
    exact modeq_eq_of_lt (mont_cancel n u v hodd h1) hu hv
  · intro he
    subst he
    exact modeq_eq_of_lt (hx2.trans hy2.symm) hx1 hy1

lemma montRepr_mul {n n_inv x y u v : Nat} (hn3 : 3 ≤ n) (hodd : n % 2 = 1)
    (hnU : n < U64) (hinv : n * n_inv % U64 = 1)
    (hx : MontRepr n x u) (hy : MontRepr n y v) :
    MontRepr n (smc_mont_mul64 x y n n_inv) (u * v % n) := by
  have hn : 0 < n := by omega
  obtain ⟨hx1, hu, hx2⟩ := hx
  obtain ⟨hy1, hv, hy2⟩ := hy
  obtain ⟨hcong, hlt⟩ := mont_mul64_spec n n_inv x y hn hnU hinv hx1 hy1
  refine ⟨hlt, Nat.mod_lt _ hn, ?_⟩
  have h1 : smc_mont_mul64 x y n n_inv * U64 ≡ u * v % n * U64 * U64 [MOD n] := by
    calc smc_mont_mul64 x y n n_inv * U64
        ≡ x * y [MOD n] := hcong
      _ ≡ u * U64 * (v * U64) [MOD n] := hx2.mul hy2
      _ = u * v * U64 * U64 := by ring
      _ ≡ u * v % n * U64 * U64 [MOD n] :=
          (((Nat.mod_modEq (u * v) n).symm.mul_right U64).mul_right U64)
  exact mont_cancel n _ _ hodd h1

lemma montRepr_one (n : Nat) (h3 : 3 ≤ n) (hodd : n % 2 = 1) :
    MontRepr n (smc_mont_one64 n) 1 := by
  obtain ⟨he, h1, hlt⟩ := mont_one64_spec n h3 hodd
  refine ⟨hlt, by omega, ?_⟩
  rw [he, one_mul]
  exact Nat.mod_modEq _ _

lemma montRepr_negone (n : Nat) (h3 : 3 ≤ n) (hodd : n % 2 = 1) :
    MontRepr n (n - smc_mont_one64 n) (n - 1) := by
  obtain ⟨he, h1, hlt⟩ := mont_one64_spec n h3 hodd
  refine ⟨by omega, by omega, ?_⟩
  have h0 : n - smc_mont_one64 n + smc_mont_one64 n ≡
      (n - 1) * U64 + U64 [MOD n] := by
    have e1 : n - smc_mont_one64 n + smc_mont_one64 n = n := by omega
    have e2 : (n - 1) * U64 + U64 = n * U64 := by
      zify [show (1 : Nat) ≤ n by omega]; ring
    rw [e1, e2]
    show n % n = n * U64 % n
    simp [Nat.mul_mod_right]
  have hone : smc_mont_one64 n ≡ U64 [MOD n] := by
    rw [he]; exact Nat.mod_modEq _ _
  exact Nat.ModEq.add_right_cancel hone h0

lemma montRepr_toMont (n a : Nat) (hn : 0 < n) :
    MontRepr n (smc_to_mont64 (a % n) n) (a % n) :=
  ⟨Nat.mod_lt _ hn, Nat.mod_lt _ hn, Nat.mod_modEq _ _⟩

lemma toMont_eq_zero_iff (n a : Nat) (hn : 0 < n) (hodd : n % 2 = 1) :
    smc_to_mont64 (a % n) n = 0 ↔ a % n = 0 := by
  unfold smc_to_mont64
  constructor
  · intro h
    have hdvd : n ∣ a % n * U64 := Nat.dvd_iff_mod_eq_zero.mpr h
    have hdvd2 : n ∣ a % n :=
      Nat.Coprime.dvd_of_dvd_mul_right (Nat.coprime_comm.mp (coprime_U64 n hodd)) hdvd
    exact Nat.eq_zero_of_dvd_of_lt hdvd2 (Nat.mod_lt _ hn)
  · intro h
    rw [h]; simp

lemma montPowLoop_spec (n n_inv : Nat) (hn3 : 3 ≤ n) (hodd : n % 2 = 1)
    (hnU : n < U64) (hinv : n * n_inv % U64 = 1) :
    ∀ fuel exp res bse vr vb, exp < 2 ^ fuel → MontRepr n res vr →
      MontRepr n bse vb →
      MontRepr n (montPowLoop n n_inv fuel res bse exp) (vr * vb ^ exp % n) := by
  intro fuel
  induction fuel with
  | zero =>
    intro exp res bse vr vb hlt hres hbse
    have hz : exp = 0 := by simpa using hlt
    subst hz
    simpa [montPowLoop, Nat.mod_eq_of_lt hres.2.1] using hres
  | succ fuel ih =>
    intro exp res bse vr vb hlt hres hbse
    by_cases hz : exp = 0
    · subst hz
      simpa [montPowLoop, Nat.mod_eq_of_lt hres.2.1] using hres
    · rw [montPowLoop]
      simp only [if_neg hz]
      have hlt2 : exp / 2 < 2 ^ fuel := by
        have h2 : (2 : Nat) ^ (fuel + 1) = 2 ^ fuel * 2 := pow_succ 2 fuel
        omega
      have hres2 : MontRepr n
          (if exp % 2 = 1 then smc_mont_mul64 res bse n n_inv else res)
          (vr * vb ^ (exp % 2) % n) := by
        by_cases hp : exp % 2 = 1
        · simp only [if_pos hp, hp, pow_one]
          exact montRepr_mul hn3 hodd hnU hinv hres hbse
        · have hp0 : exp % 2 = 0 := by omega
          simp only [if_neg hp, hp0, pow_zero, mul_one, Nat.mod_eq_of_lt hres.2.1]
          exact hres
      have hbse2 : MontRepr n (smc_mont_mul64 bse bse n n_inv) (vb * vb % n) :=
        montRepr_mul hn3 hodd hnU hinv hbse hbse
      have hrec := ih (exp / 2) _ _ _ _ hlt2 hres2 hbse2
      have heq : vr * vb ^ (exp % 2) % n * (vb * vb % n) ^ (exp / 2) % n =
          vr * vb ^ exp % n := by
        have hm : vr * vb ^ (exp % 2) % n * (vb * vb % n) ^ (exp / 2) ≡
            vr * vb ^ exp [MOD n] := by
          calc vr * vb ^ (exp % 2) % n * (vb * vb % n) ^ (exp / 2)
              ≡ vr * vb ^ (exp % 2) * (vb * vb) ^ (exp / 2) [MOD n] :=
                Nat.ModEq.mul (Nat.mod_modEq _ _) ((Nat.mod_modEq _ _).pow _)
            _ = vr * vb ^ exp := by
                rw [show vb * vb = vb ^ 2 from (pow_two vb).symm, ← pow_mul, mul_assoc,
                  ← pow_add, show exp % 2 + 2 * (exp / 2) = exp by omega]
        exact hm
      rw [heq] at hrec
      exact hrec

lemma mont_pow64_spec (n n_inv bse exp vb : Nat) (hn3 : 3 ≤ n) (hodd : n % 2 = 1)
    (hnU : n < U64) (hinv : n * n_inv % U64 = 1) (hexp : exp < U64)
    (hbse : MontRepr n bse vb) :
    MontRepr n (smc_mont_pow64 bse exp n n_inv (smc_mont_one64 n)) (vb ^ exp % n) := by
  have h := montPowLoop_spec n n_inv hn3 hodd hnU hinv 64 exp (smc_mont_one64 n)
    bse 1 vb (by rw [U64_eq] at hexp; exact hexp) (montRepr_one n hn3 hodd) hbse
  simpa [one_mul] using h

/-! ## Strong-Fermat round: 64-bit Montgomery variant -/

lemma split2Loop_spec : ∀ fuel d, 0 < d → d ≤ fuel →
    (split2Loop fuel d).1 % 2 = 1 ∧
    (split2Loop fuel d).1 * 2 ^ (split2Loop fuel d).2 = d := by
  intro fuel
  induction fuel with
  | zero => intro d hd hle; omega
  | succ fuel ih =>
    intro d hd hle
    by_cases hcond : d % 2 = 0 ∧ d ≠ 0
    · rw [split2Loop]
      simp only [if_pos hcond]
      have hd2 : 0 < d / 2 := by omega
      have hle2 : d / 2 ≤ fuel := by omega
      obtain ⟨h1, h2⟩ := ih (d / 2) hd2 hle2
      exact ⟨h1, by rw [pow_succ, ← mul_assoc, h2]; omega⟩
    · rw [split2Loop]
      simp only [if_neg hcond]
      exact ⟨by omega, by simp⟩

lemma split2_spec (d : Nat) (hd : 0 < d) :
    (split2 d).1 % 2 = 1 ∧ (split2 d).1 * 2 ^ (split2 d).2 = d :=
  split2Loop_spec d d hd le_rfl

/-- Uniqueness of the odd-times-power-of-two decomposition. -/
lemma odd_mul_pow_two_inj (d e : Nat) (hd : d % 2 = 1) (he : e % 2 = 1) :
    ∀ s t, d * 2 ^ s = e * 2 ^ t → d = e ∧ s = t := by
  intro s
  induction s with
  | zero =>
    intro t h
    cases t with
    | zero => simpa using (by simpa using h : d = e)
    | succ t =>
      exfalso
      rw [pow_succ, ← mul_assoc, pow_zero, mul_one] at h
      omega
  | succ s ih =>
    intro t h
    cases t with
    | zero =>
      exfalso
      rw [pow_succ, ← mul_assoc, pow_zero, mul_one] at h
      omega
    | succ t =>
      rw [pow_succ, ← mul_assoc, pow_succ (2 : Nat) t, ← mul_assoc] at h
      obtain ⟨h1, h2⟩ := ih t (by omega)
      exact ⟨h1, by omega⟩

/-- Loop phase of smc_mont_sprp64: starting from a Montgomery value
representing v with k squarings left, the loop accepts exactly when one of
the first k squarings of v hits n - 1. -/
lemma sprpLoop64_iff (n n_inv : Nat) (hn3 : 3 ≤ n) (hodd : n % 2 = 1)
    (hnU : n < U64) (hinv : n * n_inv % U64 = 1) :
    ∀ k x v, MontRepr n x v →
      (sprpLoop64 n n_inv (smc_mont_one64 n) (n - smc_mont_one64 n) x k = true ↔
        ∃ i, 1 ≤ i ∧ i ≤ k ∧ v ^ 2 ^ i % n = n - 1) := by
  intro k
  induction k with
  | zero =>
    intro x v hx
    simp only [sprpLoop64]
    constructor
    · intro h; cases h
    · rintro ⟨i, hi1, hi0, _⟩; omega
  | succ k ih =>
    intro x v hx
    have hx2 : MontRepr n (smc_mont_mul64 x x n n_inv) (v * v % n) :=
      montRepr_mul hn3 hodd hnU hinv hx hx
    have hone := montRepr_one n hn3 hodd
    have hnegone := montRepr_negone n hn3 hodd
    have htrans : ∀ j, (v * v % n) ^ 2 ^ j % n = v ^ 2 ^ (j + 1) % n := by
      intro j
      calc (v * v % n) ^ 2 ^ j % n
          = (v * v) ^ 2 ^ j % n := by rw [← Nat.pow_mod]
        _ = v ^ 2 ^ (j + 1) % n := by
            rw [show v * v = v ^ 2 from (pow_two v).symm, ← pow_mul,
              show 2 * 2 ^ j = 2 ^ (j + 1) by rw [pow_succ]; ring]
    rw [sprpLoop64]
    by_cases hcase1 : smc_mont_mul64 x x n n_inv = n - smc_mont_one64 n
    · simp only [if_pos hcase1]
      have hw : v * v % n = n - 1 := (montRepr_eq_iff hodd hx2 hnegone).mp hcase1
      constructor
      · intro _
        refine ⟨1, le_rfl, by omega, ?_⟩
        rw [show (2 : Nat) ^ 1 = 2 from rfl, pow_two]
        exact hw
      · intro _; trivial
    · by_cases hcase2 : smc_mont_mul64 x x n n_inv = smc_mont_one64 n
      · simp only [if_neg hcase1, if_pos hcase2]
        have hw1 : v * v % n = 1 := (montRepr_eq_iff hodd hx2 hone).mp hcase2
        constructor
        · intro h; cases h
        · rintro ⟨i, hi1, hik, hiv⟩
          exfalso
          have hiv1 : v ^ 2 ^ i % n = 1 := by
            have hi : 2 ^ i = 2 * 2 ^ (i - 1) := by
              rw [show 2 * 2 ^ (i - 1) = 2 ^ (i - 1 + 1) by rw [pow_succ]; ring]
              congr 1; omega
            calc v ^ 2 ^ i % n
                = (v ^ 2) ^ 2 ^ (i - 1) % n := by rw [← pow_mul, ← hi]
              _ = (v ^ 2 % n) ^ 2 ^ (i - 1) % n := by rw [Nat.pow_mod]
              _ = 1 ^ 2 ^ (i - 1) % n := by rw [pow_two, hw1]
              _ = 1 := by rw [one_pow, Nat.mod_eq_of_lt (by omega)]
          omega
      · simp only [if_neg hcase1, if_neg hcase2]
        rw [ih _ _ hx2]
        constructor
        · rintro ⟨i, hi1, hik, hiv⟩
          refine ⟨i + 1, by omega, by omega, ?_⟩
          rw [← htrans i]; exact hiv
        · rintro ⟨i, hi1, hik, hiv⟩
          rcases Nat.eq_or_lt_of_le hi1 with h1 | h1
          · exfalso
            have hw : v * v % n = n - 1 := by
              have := hiv
              rw [← h1] at this
              rwa [pow_one, pow_two] at this
            exact hcase1 ((montRepr_eq_iff hodd hx2 hnegone).mpr hw)
          · refine ⟨i - 1, by omega, by omega, ?_⟩
            rw [htrans (i - 1), show i - 1 + 1 = i by omega]
            exact hiv

/-- Characterization of smc_mont_sprp64 with the context produced by its
callers: the round passes exactly when the witness reduces to 0, or the
mathematical strong-probable-prime condition for base a holds. -/
lemma mont_sprp64_iff (n a : Nat) (hn3 : 3 ≤ n) (hodd : n % 2 = 1) (hnU : n < U64) :
    (smc_mont_sprp64 n a (smc_mont_inv64 n) (smc_mont_one64 n) = true ↔
      a % n = 0 ∨ a ^ (split2 (n - 1)).1 % n = 1 ∨
        ∃ r < (split2 (n - 1)).2, a ^ ((split2 (n - 1)).1 * 2 ^ r) % n = n - 1) := by
  have hinv := smc_mont_inv64_spec n hodd
  have hn : 0 < n := by omega
  obtain ⟨hd_odd, hds⟩ := split2_spec (n - 1) (by omega)
  have hs1 : 1 ≤ (split2 (n - 1)).2 := by
    rcases Nat.eq_zero_or_pos (split2 (n - 1)).2 with h0 | h
    · exfalso; rw [h0, pow_zero, mul_one] at hds; omega
    · exact h
  obtain ⟨hone_eq, hone1, hone_lt⟩ := mont_one64_spec n hn3 hodd
  have hneg_id : (if n - smc_mont_one64 n ≥ n then n - smc_mont_one64 n - n
      else n - smc_mont_one64 n) = n - smc_mont_one64 n := by
    rw [if_neg]; omega
  have hshape : smc_mont_sprp64 n a (smc_mont_inv64 n) (smc_mont_one64 n) =
      (if smc_to_mont64 (a % n) n = 0 then true
       else if smc_mont_pow64 (smc_to_mont64 (a % n) n) (split2 (n - 1)).1 n
                (smc_mont_inv64 n) (smc_mont_one64 n) = smc_mont_one64 n ∨
              smc_mont_pow64 (smc_to_mont64 (a % n) n) (split2 (n - 1)).1 n
                (smc_mont_inv64 n) (smc_mont_one64 n) =
                (if n - smc_mont_one64 n ≥ n then n - smc_mont_one64 n - n
                 else n - smc_mont_one64 n) then true
       else sprpLoop64 n (smc_mont_inv64 n) (smc_mont_one64 n)
              (if n - smc_mont_one64 n ≥ n then n - smc_mont_one64 n - n
               else n - smc_mont_one64 n)
              (smc_mont_pow64 (smc_to_mont64 (a % n) n) (split2 (n - 1)).1 n
                (smc_mont_inv64 n) (smc_mont_one64 n))
              ((split2 (n - 1)).2 - 1)) := rfl
  by_cases h0 : a % n = 0
  · have hz : smc_to_mont64 (a % n) n = 0 := (toMont_eq_zero_iff n a hn hodd).mpr h0
    rw [hshape, if_pos hz]
    simp [h0]
  · have hz : ¬smc_to_mont64 (a % n) n = 0 := fun h =>
      h0 ((toMont_eq_zero_iff n a hn hodd).mp h)
    have hd_lt : (split2 (n - 1)).1 < U64 := by
      have h2 : 1 ≤ 2 ^ (split2 (n - 1)).2 := Nat.one_le_two_pow
      have h3 : (split2 (n - 1)).1 ≤ n - 1 := by
        calc (split2 (n - 1)).1 = (split2 (n - 1)).1 * 1 := (mul_one _).symm
          _ ≤ (split2 (n - 1)).1 * 2 ^ (split2 (n - 1)).2 :=
              Nat.mul_le_mul_left _ h2
          _ = n - 1 := hds
      omega
    have hx := mont_pow64_spec n (smc_mont_inv64 n) (smc_to_mont64 (a % n) n)
      (split2 (n - 1)).1 (a % n) hn3 hodd hnU hinv hd_lt (montRepr_toMont n a hn)
    have hv0 : (a % n) ^ (split2 (n - 1)).1 % n = a ^ (split2 (n - 1)).1 % n := by
      rw [← Nat.pow_mod]
    rw [hshape, hneg_id, if_neg hz]
    generalize hX : smc_mont_pow64 (smc_to_mont64 (a % n) n) (split2 (n - 1)).1 n
      (smc_mont_inv64 n) (smc_mont_one64 n) = X
    rw [hX] at hx
    have hXone : X = smc_mont_one64 n ↔ a ^ (split2 (n - 1)).1 % n = 1 := by
      have h := montRepr_eq_iff hodd hx (montRepr_one n hn3 hodd)
      rwa [hv0] at h
    have hXneg : X = n - smc_mont_one64 n ↔ a ^ (split2 (n - 1)).1 % n = n - 1 := by
      have h := montRepr_eq_iff hodd hx (montRepr_negone n hn3 hodd)
      rwa [hv0] at h
    have hpow : ∀ i, ((a % n) ^ (split2 (n - 1)).1 % n) ^ 2 ^ i % n =
        a ^ ((split2 (n - 1)).1 * 2 ^ i) % n := by
      intro i
      rw [← Nat.pow_mod, ← pow_mul, ← Nat.pow_mod]
    have hloop := sprpLoop64_iff n (smc_mont_inv64 n) hn3 hodd hnU hinv
      ((split2 (n - 1)).2 - 1) X _ hx
    by_cases hP : X = smc_mont_one64 n ∨ X = n - smc_mont_one64 n
    · rw [if_pos hP]
      constructor
      · intro _
        rcases hP with h | h
        · exact Or.inr (Or.inl (hXone.mp h))
        · refine Or.inr (Or.inr ⟨0, by omega, ?_⟩)
          rw [pow_zero, mul_one]
          exact hXneg.mp h
      · intro _; trivial
    · rw [if_neg hP]
      push_neg at hP
      rw [hloop]
      constructor
      · rintro ⟨i, hi1, his, hiv⟩
        refine Or.inr (Or.inr ⟨i, by omega, ?_⟩)
        rw [← hpow i]
        exact hiv
      · rintro (h | h | ⟨r, hr, hv⟩)
        · exact absurd h h0
        · exact absurd (hXone.mpr h) hP.1
        · rcases Nat.eq_zero_or_pos r with hr0 | hr1
          · exfalso
            rw [hr0, pow_zero, mul_one] at hv
            exact hP.2 (hXneg.mpr hv)
          · refine ⟨r, hr1, by omega, ?_⟩
            rw [hpow r]
            exact hv

/-! ## Strong-Fermat round: native 32-bit variant -/

lemma powmodLoop32_zero (m : Nat) : ∀ fuel r a, powmodLoop32 m fuel r a 0 = r := by
  intro fuel r a
  cases fuel <;> simp [powmodLoop32]

lemma powmodLoop32_spec (m : Nat) (hm : 2 ≤ m) :
    ∀ fuel b r a, b < 2 ^ fuel → r < m → a < m →
      powmodLoop32 m fuel r a b = r * a ^ b % m := by
  intro fuel
  induction fuel with
  | zero =>
    intro b r a hb hr ha
    have hbz : b = 0 := by simpa using hb
    subst hbz
    simp [powmodLoop32, Nat.mod_eq_of_lt hr]
  | succ fuel ih =>
    intro b r a hb hr ha
    by_cases hbz : b = 0
    · subst hbz
      simp [powmodLoop32, Nat.mod_eq_of_lt hr]
    · rw [powmodLoop32]
      simp only [if_neg hbz]
      by_cases hb2 : b / 2 = 0
      · have hb1 : b = 1 := by omega
        subst hb1
        norm_num
        rw [powmodLoop32_zero]
        simp [smc_mulmod32, pow_one]
      · have hb2lt : b / 2 < 2 ^ fuel := by
          have h2 : (2 : Nat) ^ (fuel + 1) = 2 ^ fuel * 2 := pow_succ 2 fuel
          omega
        have hr2 : (if b % 2 = 1 then smc_mulmod32 r a m else r) < m := by
          split_ifs
          · exact Nat.mod_lt _ (by omega)
          · exact hr
        have ha2 : (if b / 2 = 0 then a else smc_mulmod32 a a m) < m := by
          rw [if_neg hb2]
          exact Nat.mod_lt _ (by omega)
        rw [ih (b / 2) _ _ hb2lt hr2 ha2, if_neg hb2]
        have key : (if b % 2 = 1 then smc_mulmod32 r a m else r) *
            (smc_mulmod32 a a m) ^ (b / 2) ≡ r * a ^ b [MOD m] := by
          have h1 : (if b % 2 = 1 then smc_mulmod32 r a m else r) ≡
              r * a ^ (b % 2) [MOD m] := by
            by_cases hp : b % 2 = 1
            · simp only [if_pos hp, hp, pow_one, smc_mulmod32]
              exact Nat.mod_modEq _ _
            · have hp0 : b % 2 = 0 := by omega
              rw [if_neg hp, hp0, pow_zero, mul_one]
          have h2 : (smc_mulmod32 a a m) ^ (b / 2) ≡ (a * a) ^ (b / 2) [MOD m] :=
            (Nat.mod_modEq _ _).pow _
          calc (if b % 2 = 1 then smc_mulmod32 r a m else r) *
              (smc_mulmod32 a a m) ^ (b / 2)
              ≡ r * a ^ (b % 2) * (a * a) ^ (b / 2) [MOD m] := h1.mul h2
            _ = r * a ^ b := by
                rw [show a * a = a ^ 2 from (pow_two a).symm, ← pow_mul, mul_assoc,
                  ← pow_add, show b % 2 + 2 * (b / 2) = b by omega]
        exact key

lemma smc_powmod32_spec (a b m : Nat) (hm : 2 ≤ m) (hb : b < U32) :
    smc_powmod32 a b m = a ^ b % m := by
  unfold smc_powmod32
  rw [powmodLoop32_spec m hm 32 b 1 (a % m) hb (by omega) (Nat.mod_lt _ (by omega)),
    one_mul, ← Nat.pow_mod]

lemma sprpLoop32_iff (n : Nat) (hn3 : 3 ≤ n) :
    ∀ k v, v < n →
      (sprpLoop32 n v k = true ↔ ∃ i, 1 ≤ i ∧ i ≤ k ∧ v ^ 2 ^ i % n = n - 1) := by
  intro k
  induction k with
  | zero =>
    intro v _
    simp only [sprpLoop32]
    constructor
    · intro h; cases h
    · rintro ⟨i, hi1, hi0, _⟩; omega
  | succ k ih =>
    intro v hv
    have htrans : ∀ j, (v * v % n) ^ 2 ^ j % n = v ^ 2 ^ (j + 1) % n := by
      intro j
      calc (v * v % n) ^ 2 ^ j % n
          = (v * v) ^ 2 ^ j % n := by rw [← Nat.pow_mod]
        _ = v ^ 2 ^ (j + 1) % n := by
            rw [show v * v = v ^ 2 from (pow_two v).symm, ← pow_mul,
              show 2 * 2 ^ j = 2 ^ (j + 1) by rw [pow_succ]; ring]
    rw [sprpLoop32]
    by_cases hcase1 : smc_mulmod32 v v n = n - 1
    · simp only [if_pos hcase1]
      constructor
      · intro _
        refine ⟨1, le_rfl, by omega, ?_⟩
        rw [show (2 : Nat) ^ 1 = 2 from rfl, pow_two]
        exact hcase1
      · intro _; trivial
    · by_cases hcase2 : smc_mulmod32 v v n = 1
      · simp only [if_neg hcase1, if_pos hcase2]
        constructor
        · intro h; cases h
        · rintro ⟨i, hi1, hik, hiv⟩
          exfalso
          have hw1 : v * v % n = 1 := hcase2
          have hiv1 : v ^ 2 ^ i % n = 1 := by
            have hi : 2 ^ i = 2 * 2 ^ (i - 1) := by
              rw [show 2 * 2 ^ (i - 1) = 2 ^ (i - 1 + 1) by rw [pow_succ]; ring]
              congr 1; omega
            calc v ^ 2 ^ i % n
                = (v ^ 2) ^ 2 ^ (i - 1) % n := by rw [← pow_mul, ← hi]
              _ = (v ^ 2 % n) ^ 2 ^ (i - 1) % n := by rw [Nat.pow_mod]
              _ = 1 ^ 2 ^ (i - 1) % n := by rw [pow_two, hw1]
              _ = 1 := by rw [one_pow, Nat.mod_eq_of_lt (by omega)]
          omega
      · have hc1 : ¬(v * v % n = n - 1) := hcase1
        have hc2 : ¬(v * v % n = 1) := hcase2
        simp only [smc_mulmod32, if_neg hc1, if_neg hc2]
        rw [ih (v * v % n) (Nat.mod_lt _ (by omega))]
        constructor
        · rintro ⟨i, hi1, hik, hiv⟩
          refine ⟨i + 1, by omega, by omega, ?_⟩
          rw [← htrans i]
          exact hiv
        · rintro ⟨i, hi1, hik, hiv⟩
          rcases Nat.eq_or_lt_of_le hi1 with h1 | h1
          · exfalso
            have hw : v * v % n = n - 1 := by
              have h2 := hiv
              rw [← h1] at h2
              rwa [pow_one, pow_two] at h2
            exact hcase1 hw
          · refine ⟨i - 1, by omega, by omega, ?_⟩
            rw [htrans (i - 1), show i - 1 + 1 = i by omega]
            exact hiv

/-- Characterization of smc_sprp32: the round passes exactly when the witness
reduces to 0 modulo n, or the strong-probable-prime condition for base a
holds. -/
lemma sprp32_iff (n a : Nat) (hn3 : 3 ≤ n) (hodd : n % 2 = 1) (hnU : n < U32) :
    (smc_sprp32 n a = true ↔
      a % n = 0 ∨ a ^ (split2 (n - 1)).1 % n = 1 ∨
        ∃ r < (split2 (n - 1)).2, a ^ ((split2 (n - 1)).1 * 2 ^ r) % n = n - 1) := by
  obtain ⟨hd_odd, hds⟩ := split2_spec (n - 1) (by omega)
  have hs1 : 1 ≤ (split2 (n - 1)).2 := by
    rcases Nat.eq_zero_or_pos (split2 (n - 1)).2 with h0 | h
    · exfalso; rw [h0, pow_zero, mul_one] at hds; omega
    · exact h
  have hshape : smc_sprp32 n a = (if a % n = 0 then true else
      if smc_powmod32 a (split2 (n - 1)).1 n = 1 ∨
          smc_powmod32 a (split2 (n - 1)).1 n = n - 1 then true
      else sprpLoop32 n (smc_powmod32 a (split2 (n - 1)).1 n)
        ((split2 (n - 1)).2 - 1)) := rfl
  rw [hshape]
  by_cases h0 : a % n = 0
  · rw [if_pos h0]; simp [h0]
  · rw [if_neg h0]
    have hd_lt : (split2 (n - 1)).1 < U32 := by
      have h2 : 1 ≤ 2 ^ (split2 (n - 1)).2 := Nat.one_le_two_pow
      have h3 : (split2 (n - 1)).1 ≤ n - 1 := by
        calc (split2 (n - 1)).1 = (split2 (n - 1)).1 * 1 := (mul_one _).symm
          _ ≤ (split2 (n - 1)).1 * 2 ^ (split2 (n - 1)).2 :=
              Nat.mul_le_mul_left _ h2
          _ = n - 1 := hds
      omega
    rw [smc_powmod32_spec a _ n (by omega) hd_lt]
    have hv0_lt : a ^ (split2 (n - 1)).1 % n < n := Nat.mod_lt _ (by omega)
    have hloop := sprpLoop32_iff n hn3 ((split2 (n - 1)).2 - 1) _ hv0_lt
    have hpow : ∀ i, (a ^ (split2 (n - 1)).1 % n) ^ 2 ^ i % n =
        a ^ ((split2 (n - 1)).1 * 2 ^ i) % n := by
      intro i
      rw [← Nat.pow_mod, ← pow_mul]
    by_cases hP : a ^ (split2 (n - 1)).1 % n = 1 ∨
        a ^ (split2 (n - 1)).1 % n = n - 1
    · rw [if_pos hP]
      constructor
      · intro _
        rcases hP with h | h
        · exact Or.inr (Or.inl h)
        · exact Or.inr (Or.inr ⟨0, by omega, by rw [pow_zero, mul_one]; exact h⟩)
      · intro _; trivial
    · rw [if_neg hP]
      push_neg at hP
      rw [hloop]
      constructor
      · rintro ⟨i, hi1, his, hiv⟩
        exact Or.inr (Or.inr ⟨i, by omega, by rw [← hpow i]; exact hiv⟩)
      · rintro (h | h | ⟨r, hr, hv⟩)
        · exact absurd h h0
        · exact absurd h hP.1
        · rcases Nat.eq_zero_or_pos r with hr0 | hr1
          · exfalso
            rw [hr0, pow_zero, mul_one] at hv
            exact hP.2 hv
          · exact ⟨r, hr1, by omega, by rw [hpow r]; exact hv⟩

/-! ## Completeness: a strong-Fermat round never rejects a prime -/

/-- Repeated square roots of unity in the prime field: if y^(2^s) = 1 then
either y = 1 or some earlier power of y is -1. -/
lemma sq_chain {p : Nat} [Fact (Nat.Prime p)] (y : ZMod p) :
    ∀ s, y ^ 2 ^ s = 1 → y = 1 ∨ ∃ r < s, y ^ 2 ^ r = -1 := by
  intro s
  induction s with
  | zero => intro h; left; simpa using h
  | succ s ih =>
    intro h
    have h2 : y ^ 2 ^ s * y ^ 2 ^ s = 1 := by
      rw [← pow_add, show 2 ^ s + 2 ^ s = 2 ^ (s + 1) by rw [pow_succ]; ring]
      exact h
    rcases mul_self_eq_one_iff.mp h2 with h1 | h1
    · rcases ih h1 with h3 | ⟨r, hr, h3⟩
      · exact Or.inl h3
      · exact Or.inr ⟨r, by omega, h3⟩
    · exact Or.inr ⟨s, by omega, h1⟩

/-- Mathematical completeness of the strong-Fermat condition: every odd prime
satisfies the accepting disjunction for every base. -/
lemma sprp_condition_of_prime (p a : Nat) (hp : Nat.Prime p) (hp3 : 3 ≤ p) :
    a % p = 0 ∨ a ^ (split2 (p - 1)).1 % p = 1 ∨
      ∃ r < (split2 (p - 1)).2, a ^ ((split2 (p - 1)).1 * 2 ^ r) % p = p - 1 := by
  by_cases h0 : a % p = 0
  · exact Or.inl h0
  haveI : Fact (Nat.Prime p) := ⟨hp⟩
  obtain ⟨hd_odd, hds⟩ := split2_spec (p - 1) (by omega)
  have ha0 : (a : ZMod p) ≠ 0 := by
    rw [Ne, ZMod.natCast_zmod_eq_zero_iff_dvd]
    intro hdvd
    exact h0 (Nat.dvd_iff_mod_eq_zero.mp hdvd)
  have hfer : (a : ZMod p) ^ (p - 1) = 1 := ZMod.pow_card_sub_one_eq_one ha0
  have hkey : ((a : ZMod p) ^ (split2 (p - 1)).1) ^ 2 ^ (split2 (p - 1)).2 = 1 := by
    rw [← pow_mul, hds]
    exact hfer
  rcases sq_chain _ _ hkey with h1 | ⟨r, hr, h1⟩
  · refine Or.inr (Or.inl ?_)
    have hc : ((a ^ (split2 (p - 1)).1 : Nat) : ZMod p) = ((1 : Nat) : ZMod p) := by
      rw [Nat.cast_pow, Nat.cast_one]
      exact h1
    have hm : a ^ (split2 (p - 1)).1 % p = 1 % p :=
      (ZMod.natCast_eq_natCast_iff _ _ _).mp hc
    rwa [Nat.mod_eq_of_lt (show 1 < p by omega)] at hm
  · refine Or.inr (Or.inr ⟨r, hr, ?_⟩)
    have hneg : ((p - 1 : Nat) : ZMod p) = -1 := by
      rw [Nat.cast_sub (by omega : 1 ≤ p), ZMod.natCast_self, Nat.cast_one, zero_sub]
    have hc : ((a ^ ((split2 (p - 1)).1 * 2 ^ r) : Nat) : ZMod p) =
        ((p - 1 : Nat) : ZMod p) := by
      rw [hneg, Nat.cast_pow, pow_mul]
      exact h1
    have hm : a ^ ((split2 (p - 1)).1 * 2 ^ r) % p = (p - 1) % p :=
      (ZMod.natCast_eq_natCast_iff _ _ _).mp hc
    rwa [Nat.mod_eq_of_lt (show p - 1 < p by omega)] at hm

lemma sprp32_of_prime (p a : Nat) (hp : Nat.Prime p) (hodd : p % 2 = 1)
    (hp3 : 3 ≤ p) (hpU : p < U32) : smc_sprp32 p a = true :=
  (sprp32_iff p a hp3 hodd hpU).mpr (sprp_condition_of_prime p a hp hp3)

lemma mont_sprp64_of_prime (p a : Nat) (hp : Nat.Prime p) (hodd : p % 2 = 1)
    (hp3 : 3 ≤ p) (hpU : p < U64) :
    smc_mont_sprp64 p a (smc_mont_inv64 p) (smc_mont_one64 p) = true :=
  (mont_sprp64_iff p a hp3 hodd hpU).mpr (sprp_condition_of_prime p a hp hp3)

/-- Value hard-coded by the library: 3215031751 = 151 * 21291601 is composite
(the strong pseudoprime to bases 2, 3, 5, 7). -/
lemma not_prime_pseudo : ¬ Nat.Prime 3215031751 := by
  intro hp
  have h151 : (151 : Nat) ∣ 3215031751 := by norm_num
  rcases hp.eq_one_or_self_of_dvd 151 h151 with h | h <;> norm_num at h

/-! ## Trial division by prime inverses -/

section TrialDivision

attribute [local instance] Nat.decidablePrime1

set_option maxRecDepth 40000

lemma trial_zip_facts : ∀ pq ∈ SMC_TRIAL_PRIMES.zip SMC_PRIME_INV64,
    Nat.Prime pq.1 ∧ 3 ≤ pq.1 ∧ pq.1 ≤ 331 ∧ pq.1 * pq.2 % U64 = 1 := by decide

lemma trial_primes_are : ∀ q ∈ SMC_TRIAL_PRIMES, 3 ≤ q ∧ q ≤ 331 ∧ Nat.Prime q := by
  decide

lemma trial_primes_mem : ∀ q < 332, 3 ≤ q → Nat.Prime q → q ∈ SMC_TRIAL_PRIMES := by
  decide

lemma trial_primes_sorted : List.Sorted (· < ·) SMC_TRIAL_PRIMES := by decide

end TrialDivision

/-- Core correctness of one prime-inverse divisibility probe, valid below the
source threshold 55730344633563600 (which satisfies 331 * threshold ≤ 2^64). -/
lemma trial_division_iff (n p pinv : Nat) (hp : Nat.Prime p) (hp3 : 3 ≤ p)
    (hp331 : p ≤ 331) (hinv : p * pinv % U64 = 1) (hn1 : 1 ≤ n)
    (hnT : n < 55730344633563600) :
    (n * pinv % U64 = 1 ↔ n = p) ∧ (n * pinv % U64 < n ↔ p ∣ n) := by
  have hU1 : 1 < U64 := by norm_num [U64]
  have hinv_modeq : p * pinv ≡ 1 [MOD U64] := by
    show p * pinv % U64 = 1 % U64
    rw [hinv, Nat.mod_eq_of_lt hU1]
  have hTU : (55730344633563600 : Nat) < U64 := by norm_num [U64]
  have hnU : n < U64 := by omega
  have hpU : p < U64 := by omega
  constructor
  · constructor
    · intro h
      have h1 : n * pinv ≡ 1 [MOD U64] := by
        show n * pinv % U64 = 1 % U64
        rw [h, Nat.mod_eq_of_lt hU1]
      have e1 : n * (p * pinv) ≡ n * 1 [MOD U64] := hinv_modeq.mul_left n
      have e2 : p * (n * pinv) ≡ p * 1 [MOD U64] := h1.mul_left p
      have e3 : n * (p * pinv) = p * (n * pinv) := by ring
      have hnp : n ≡ p [MOD U64] := by
        have h4 := (e1.symm.trans (e3 ▸ e2))
        simpa using h4
      exact modeq_eq_of_lt hnp hnU hpU
    · intro h; subst h; exact hinv
  · constructor
    · intro h
      have h1 : p * (n * pinv % U64) ≡ n [MOD U64] := by
        calc p * (n * pinv % U64)
            ≡ p * (n * pinv) [MOD U64] := (Nat.mod_modEq _ _).mul_left p
          _ = n * (p * pinv) := by ring
          _ ≡ n * 1 [MOD U64] := hinv_modeq.mul_left n
          _ = n := mul_one n
      have hb : p * (n * pinv % U64) < U64 := by
        have h2 : p * (n * pinv % U64) < p * n := mul_lt_mul_of_pos_left h (by omega)
        have h3 : p * n ≤ 331 * n := Nat.mul_le_mul_right n hp331
        have h4 : 331 * n < 331 * 55730344633563600 :=
          mul_lt_mul_of_pos_left hnT (by norm_num)
        have h5 : (331 : Nat) * 55730344633563600 < U64 := by norm_num [U64]
        omega
      have heq : p * (n * pinv % U64) = n := modeq_eq_of_lt h1 hb hnU
      exact ⟨_, heq.symm⟩
    · intro h
      obtain ⟨k, hk⟩ := h
      have hkz : k ≠ 0 := by rintro rfl; simp at hk; omega
      have hkn : k ≤ n := by
        calc k = k * 1 := (mul_one k).symm
          _ ≤ k * p := Nat.mul_le_mul_left k (by omega)
          _ = n := by rw [hk]; ring
      have hprod : n * pinv ≡ k [MOD U64] := by
        calc n * pinv = k * (p * pinv) := by rw [hk]; ring
          _ ≡ k * 1 [MOD U64] := hinv_modeq.mul_left k
          _ = k := mul_one k
      have heq : n * pinv % U64 = k := by
        have h2 : n * pinv % U64 = k % U64 := hprod
        rwa [Nat.mod_eq_of_lt (show k < U64 by omega)] at h2
      rw [heq, hk]
      calc k = 1 * k := (one_mul k).symm
        _ < p * k := mul_lt_mul_of_pos_right (by omega) (by omega)

/-- The trial-division loop never reports divisible on a prime input, given
that every probe of the list is faithful. -/
lemma trialLoop_not_false_of_prime (n : Nat) (hp : Nat.Prime n) :
    ∀ (ps invs : List Nat), ps.length = invs.length →
      (∀ pq ∈ ps.zip invs, 3 ≤ pq.1 ∧ (n * pq.2 % U64 = 1 ↔ n = pq.1) ∧
        (n * pq.2 % U64 < n ↔ pq.1 ∣ n)) →
      trialLoop n invs ≠ some false := by
  intro ps
  induction ps with
  | nil =>
    intro invs hlen _
    have hnil : invs = [] := List.eq_nil_of_length_eq_zero hlen.symm
    subst hnil
    simp [trialLoop]
  | cons p ps ih =>
    intro invs hlen hfacts
    cases invs with
    | nil => simp at hlen
    | cons pinv invs =>
      obtain ⟨h3, h1, h2⟩ := hfacts (p, pinv) (by simp)
      rw [trialLoop]
      by_cases hc1 : n * pinv % U64 = 1
      · simp [hc1]
      · rw [if_neg hc1]
        by_cases hc2 : n * pinv % U64 < n
        · exfalso
          have hdvd : p ∣ n := h2.mp hc2
          have hpn : p = n :=
            (hp.eq_one_or_self_of_dvd p hdvd).resolve_left (by omega)
          exact hc1 (h1.mpr hpn.symm)
        · rw [if_neg hc2]
          exact ih invs (by simpa using hlen)
            (fun pq hpq => hfacts pq (by simp [hpq]))

/-- Verdicts of the trial-division loop are sound on the threshold range. -/
lemma trialLoop_verdicts (n : Nat) :
    ∀ (ps invs : List Nat), ps.length = invs.length →
      (∀ pq ∈ ps.zip invs, Nat.Prime pq.1 ∧ 3 ≤ pq.1 ∧
        (n * pq.2 % U64 = 1 ↔ n = pq.1) ∧ (n * pq.2 % U64 < n ↔ pq.1 ∣ n)) →
      (trialLoop n invs = some true → Nat.Prime n) ∧
      (trialLoop n invs = some false → ¬ Nat.Prime n) := by
  intro ps
  induction ps with
  | nil =>
    intro invs hlen _
    have hnil : invs = [] := List.eq_nil_of_length_eq_zero hlen.symm
    subst hnil
    simp [trialLoop]
  | cons p ps ih =>
    intro invs hlen hfacts
    cases invs with
    | nil => simp at hlen
    | cons pinv invs =>
      obtain ⟨hprime, h3, h1, h2⟩ := hfacts (p, pinv) (by simp)
      rw [trialLoop]
      by_cases hc1 : n * pinv % U64 = 1
      · rw [if_pos hc1]
        constructor
        · intro _
          rw [h1.mp hc1]
          exact hprime
        · intro h; cases h
      · rw [if_neg hc1]
        by_cases hc2 : n * pinv % U64 < n
        · rw [if_pos hc2]
          constructor
          · intro h; cases h
          · intro _ hprime_n
            have hdvd : p ∣ n := h2.mp hc2
            have hpn : p = n :=
              (hprime_n.eq_one_or_self_of_dvd p hdvd).resolve_left (by omega)
            exact hc1 (h1.mpr hpn.symm)
        · rw [if_neg hc2]
          exact ih invs (by simpa using hlen)
            (fun pq hpq => hfacts pq (by simp [hpq]))

/-! ## Completeness of the primality deciders -/

lemma trial_zip_for (n : Nat) (hn1 : 1 ≤ n) (hnT : n < 55730344633563600) :
    ∀ pq ∈ SMC_TRIAL_PRIMES.zip SMC_PRIME_INV64,
      Nat.Prime pq.1 ∧ 3 ≤ pq.1 ∧ (n * pq.2 % U64 = 1 ↔ n = pq.1) ∧
        (n * pq.2 % U64 < n ↔ pq.1 ∣ n) := by
  intro pq hpq
  obtain ⟨hp, h3, h331, hinv⟩ := trial_zip_facts pq hpq
  obtain ⟨i1, i2⟩ := trial_division_iff n pq.1 pq.2 hp h3 h331 hinv hn1 hnT
  exact ⟨hp, h3, i1, i2⟩

lemma is_prime32_complete (p : Nat) (hp : Nat.Prime p) (hpU : p < U32) :
    smc_is_prime32 p = true := by
  have hp2 : 2 ≤ p := hp.two_le
  by_cases hp2e : p = 2
  · subst hp2e; decide
  have hodd : p % 2 = 1 := Nat.odd_iff.mp (hp.odd_of_ne_two hp2e)
  by_cases hsmall : p < 9
  · unfold smc_is_prime32
    rw [if_neg (by omega : ¬p < 2), if_neg hp2e, if_neg (by omega : ¬p % 2 = 0),
      if_pos hsmall]
  · have hnd : ∀ q : Nat, 2 ≤ q → q < p → p % q ≠ 0 := by
      intro q hq2 hqp h
      have hdvd : q ∣ p := Nat.dvd_iff_mod_eq_zero.mpr h
      rcases hp.eq_one_or_self_of_dvd q hdvd with h1 | h1 <;> omega
    have hps : p ≠ 3215031751 := fun h => absurd (h ▸ hp) not_prime_pseudo
    unfold smc_is_prime32
    rw [if_neg (by omega : ¬p < 2), if_neg hp2e, if_neg (by omega : ¬p % 2 = 0),
      if_neg hsmall, if_neg (hnd 3 (by norm_num) (by omega)),
      if_neg (hnd 5 (by norm_num) (by omega)),
      if_neg (hnd 7 (by norm_num) (by omega)), if_neg hps,
      sprp32_of_prime p 2 hp hodd (by omega) hpU,
      sprp32_of_prime p 7 hp hodd (by omega) hpU,
      sprp32_of_prime p 61 hp hodd (by omega) hpU]
    rfl

lemma mrLadder_complete (p : Nat) (hp : Nat.Prime p) (hodd : p % 2 = 1)
    (hp3 : 3 ≤ p) (hpU : p < U64) :
    mrLadder p (smc_mont_inv64 p) (smc_mont_one64 p) = true := by
  have hs : ∀ a, smc_mont_sprp64 p a (smc_mont_inv64 p) (smc_mont_one64 p) = true :=
    fun a => mont_sprp64_of_prime p a hp hodd hp3 hpU
  have hps : p ≠ 3215031751 := fun h => absurd (h ▸ hp) not_prime_pseudo
  simp [mrLadder, hs 2, hs 3, hs 5, hs 7, hs 11, hs 13, hs 17, hs 19, hs 23,
    hs 29, hs 31, hs 37, hps]

lemma is_prime64_complete (p : Nat) (hp : Nat.Prime p) (hpU : p < U64) :
    smc_is_prime64 p = true := by
  have hp2 : 2 ≤ p := hp.two_le
  by_cases hp2e : p = 2
  · subst hp2e; decide
  have hodd : p % 2 = 1 := Nat.odd_iff.mp (hp.odd_of_ne_two hp2e)
  by_cases hsmall : p < 9
  · unfold smc_is_prime64
    rw [if_neg (by omega : ¬p < 2), if_neg hp2e, if_neg (by omega : ¬p % 2 = 0),
      if_pos hsmall]
  · have hnd : ∀ q : Nat, 2 ≤ q → q < p → p % q ≠ 0 := by
      intro q hq2 hqp h
      have hdvd : q ∣ p := Nat.dvd_iff_mod_eq_zero.mpr h
      rcases hp.eq_one_or_self_of_dvd q hdvd with h1 | h1 <;> omega
    have hlad := mrLadder_complete p hp hodd (by omega) hpU
    unfold smc_is_prime64
    rw [if_neg (by omega : ¬p < 2), if_neg hp2e, if_neg (by omega : ¬p % 2 = 0),
      if_neg hsmall]
    by_cases hT : p < 55730344633563600
    · rw [if_pos hT]
      have hfacts := trial_zip_for p (by omega) hT
      rcases htl : trialLoop p SMC_PRIME_INV64 with _ | b
      · show (if p < 109561 then true
          else mrLadder p (smc_mont_inv64 p) (smc_mont_one64 p)) = true
        split_ifs with h109
        · rfl
        · exact hlad
      · show b = true
        cases b with
        | false =>
          exact absurd htl (trialLoop_not_false_of_prime p hp SMC_TRIAL_PRIMES
            SMC_PRIME_INV64 (by rfl)
            (fun pq hpq => ⟨(hfacts pq hpq).2.1, (hfacts pq hpq).2.2.1,
              (hfacts pq hpq).2.2.2⟩))
        | true => rfl
    · rw [if_neg hT]
      rw [if_neg (hnd 3 (by norm_num) (by omega)),
        if_neg (hnd 5 (by norm_num) (by omega)),
        if_neg (hnd 7 (by norm_num) (by omega)),
        if_neg (hnd 11 (by norm_num) (by omega)),
        if_neg (hnd 13 (by norm_num) (by omega))]
      exact hlad

/-! ## Idempotence of prime navigation on primes -/

lemma smc_next_prime64_idem (p : Nat) (hp : Nat.Prime p) (hpU : p < U64) :
    smc_next_prime64 p = p := by
  by_cases h2 : p ≤ 2
  · have hp2 : p = 2 := by have := hp.two_le; omega
    subst hp2; decide
  · by_cases h3 : p = 3
    · subst h3; decide
    · have hodd : p % 2 = 1 := Nat.odd_iff.mp (hp.odd_of_ne_two (by omega))
      unfold smc_next_prime64
      rw [if_neg h2, if_neg h3, if_neg (by omega : ¬p % 2 = 0)]
      rw [show U64 = 18446744073709551615 + 1 by rw [U64_eq]; norm_num]
      rw [nextLoop64, if_pos (is_prime64_complete p hp hpU)]

lemma smc_prev_prime64_idem (p : Nat) (hp : Nat.Prime p) (hpU : p < U64) :
    smc_prev_prime64 p = p := by
  have hp2 : 2 ≤ p := hp.two_le
  by_cases h2e : p = 2
  · subst h2e; decide
  · have hodd : p % 2 = 1 := Nat.odd_iff.mp (hp.odd_of_ne_two h2e)
    unfold smc_prev_prime64
    rw [if_neg (by omega : ¬p < 2), if_neg h2e, if_neg (by omega : ¬p % 2 = 0)]
    obtain ⟨k, rfl⟩ : ∃ k, p = k + 1 := ⟨p - 1, by omega⟩
    rw [prevLoop64, if_pos (is_prime64_complete _ hp hpU)]

lemma smc_next_prime32_idem (p : Nat) (hp : Nat.Prime p) (hpU : p < U32) :
    smc_next_prime32 p = p := by
  by_cases h2 : p ≤ 2
  · have hp2 : p = 2 := by have := hp.two_le; omega
    subst hp2; decide
  · by_cases h3 : p = 3
    · subst h3; decide
    · have hodd : p % 2 = 1 := Nat.odd_iff.mp (hp.odd_of_ne_two (by omega))
      unfold smc_next_prime32
      rw [if_neg h2, if_neg h3, if_neg (by omega : ¬p % 2 = 0)]
      rw [show U32 = 4294967295 + 1 by norm_num [U32]]
      rw [nextLoop32, if_pos (is_prime32_complete p hp hpU)]

lemma smc_prev_prime32_idem (p : Nat) (hp : Nat.Prime p) (hpU : p < U32) :
    smc_prev_prime32 p = p := by
  have hp2 : 2 ≤ p := hp.two_le
  by_cases h2e : p = 2
  · subst h2e; decide
  · have hodd : p % 2 = 1 := Nat.odd_iff.mp (hp.odd_of_ne_two h2e)
    unfold smc_prev_prime32
    rw [if_neg (by omega : ¬p < 2), if_neg h2e, if_neg (by omega : ¬p % 2 = 0)]
    obtain ⟨k, rfl⟩ : ∃ k, p = k + 1 := ⟨p - 1, by omega⟩
    rw [prevLoop32, if_pos (is_prime32_complete _ hp hpU)]

/-! ## Claim theorems -/

/-- C2: for every odd unsigned 64-bit integer n, the value returned by
smc_mont_inv64 n — computed from the estimate (3*n) xor 2 by four rounds of
est = (2 - est*n) * est, all arithmetic wrapping modulo 2^64 — satisfies
n * smc_mont_inv64 n ≡ 1 (mod 2^64). -/
theorem spec_C2 (n : Nat) (hodd : Odd n) (hn : n < U64) :
    n * smc_mont_inv64 n % U64 = 1 :=
  smc_mont_inv64_spec n (Nat.odd_iff.mp hodd)

theorem spec_C2_witness :
    Odd 7 ∧ (7 : Nat) < U64 ∧ 7 * smc_mont_inv64 7 % U64 = 1 :=
  ⟨⟨3, rfl⟩, by decide, spec_C2 7 ⟨3, rfl⟩ (by decide)⟩

/-- C3: for every odd 64-bit modulus n ≥ 3 with n_inv = smc_mont_inv64 n and
every 128-bit input x = x_hi * 2^64 + x_lo below n * 2^64, smc_mont_reduce64
returns r with r * 2^64 ≡ x (mod n) — that is, r ≡ x * 2^(-64) (mod n) — and
r < 2n; moreover on a product of two operands a, b < n, as used by
smc_mont_mul64, the result is below n. -/
theorem spec_C3 (n x_lo x_hi a b : Nat) (hodd : Odd n) (h3 : 3 ≤ n)
    (hnU : n < U64) (hlo : x_lo < U64) (hx : x_hi * U64 + x_lo < n * U64)
    (ha : a < n) (hb : b < n) :
    smc_mont_reduce64 x_lo x_hi n (smc_mont_inv64 n) * U64 % n =
      (x_hi * U64 + x_lo) % n ∧
    smc_mont_reduce64 x_lo x_hi n (smc_mont_inv64 n) < 2 * n ∧
    smc_mont_mul64 a b n (smc_mont_inv64 n) < n := by
  have hinv := smc_mont_inv64_spec n (Nat.odd_iff.mp hodd)
  obtain ⟨hc, hr⟩ :=
    mont_reduce64_spec n (smc_mont_inv64 n) x_lo x_hi (by omega) hinv hlo hx
  exact ⟨hc, by omega, (mont_mul64_spec n _ a b (by omega) hnU hinv ha hb).2⟩

theorem spec_C3_witness :
    Odd 13 ∧ 3 ≤ 13 ∧ (13 : Nat) < U64 ∧ (5 : Nat) < U64 ∧
    7 * U64 + 5 < 13 * U64 ∧ (4 : Nat) < 13 ∧ (9 : Nat) < 13 ∧
    (smc_mont_reduce64 5 7 13 (smc_mont_inv64 13) * U64 % 13 =
        (7 * U64 + 5) % 13 ∧
      smc_mont_reduce64 5 7 13 (smc_mont_inv64 13) < 2 * 13 ∧
      smc_mont_mul64 4 9 13 (smc_mont_inv64 13) < 13) :=
  ⟨⟨6, rfl⟩, by norm_num, by decide, by decide, by decide, by norm_num, by norm_num,
    spec_C3 13 5 7 4 9 ⟨6, rfl⟩ (by norm_num) (by decide) (by decide) (by decide)
      (by norm_num) (by norm_num)⟩

/-- C4: the 66 constants of SMC_PRIME_INV64 are exactly the inverses modulo
2^64 of the primes 3..331 in order, and for every odd n with
9 ≤ n < 55730344633563600 and every listed pair (p, p_inv) the probe
prod = n * p_inv mod 2^64 satisfies prod = 1 iff n = p and prod < n iff p
divides n; hence the verdicts of the trial-division loop (prod = 1 means
prime, prod < n means composite) are correct on that range. -/
theorem spec_C4 :
    (SMC_PRIME_INV64.length = 66 ∧ SMC_TRIAL_PRIMES.length = 66 ∧
      List.Sorted (· < ·) SMC_TRIAL_PRIMES ∧
      (∀ q, q ∈ SMC_TRIAL_PRIMES ↔ 3 ≤ q ∧ q ≤ 331 ∧ Nat.Prime q) ∧
      ∀ pq ∈ SMC_TRIAL_PRIMES.zip SMC_PRIME_INV64, pq.1 * pq.2 % U64 = 1) ∧
    ∀ n, Odd n → 9 ≤ n → n < 55730344633563600 →
      (∀ pq ∈ SMC_TRIAL_PRIMES.zip SMC_PRIME_INV64,
        (n * pq.2 % U64 = 1 ↔ n = pq.1) ∧ (n * pq.2 % U64 < n ↔ pq.1 ∣ n)) ∧
      (trialLoop n SMC_PRIME_INV64 = some true → Nat.Prime n) ∧
      (trialLoop n SMC_PRIME_INV64 = some false → ¬Nat.Prime n) := by
  constructor
  · refine ⟨by rfl, by rfl, trial_primes_sorted, ?_,
      fun pq hpq => (trial_zip_facts pq hpq).2.2.2⟩
    intro q
    constructor
    · intro hq
      exact trial_primes_are q hq
    · rintro ⟨h3, h331, hp⟩
      exact trial_primes_mem q (by omega) h3 hp
  · intro n hodd hn9 hnT
    have hfacts := trial_zip_for n (by omega) hnT
    have hverd := trialLoop_verdicts n SMC_TRIAL_PRIMES SMC_PRIME_INV64
      (by rfl) hfacts
    exact ⟨fun pq hpq => ⟨(hfacts pq hpq).2.2.1, (hfacts pq hpq).2.2.2⟩,
      hverd.1, hverd.2⟩

theorem spec_C4_witness :
    Odd 15 ∧ 9 ≤ 15 ∧ (15 : Nat) < 55730344633563600 ∧
    ((3 : Nat), (0xAAAAAAAAAAAAAAAB : Nat)) ∈
      SMC_TRIAL_PRIMES.zip SMC_PRIME_INV64 ∧
    ((15 * 0xAAAAAAAAAAAAAAAB % U64 = 1 ↔ (15 : Nat) = 3) ∧
      (15 * 0xAAAAAAAAAAAAAAAB % U64 < 15 ↔ (3 : Nat) ∣ 15)) :=
  ⟨⟨7, rfl⟩, by norm_num, by norm_num, by decide,
    (spec_C4.2 15 ⟨7, rfl⟩ (by norm_num) (by norm_num)).1
      (3, 0xAAAAAAAAAAAAAAAB) (by decide)⟩

/-- C5: for every odd n > 2 with n - 1 = d * 2^s, d odd, and every witness a,
both strong-Fermat rounds (smc_sprp32 on its 32-bit domain, and
smc_mont_sprp64 with the context its callers build) return true when
a mod n = 0, and otherwise return true exactly when a^d ≡ 1 (mod n) or
a^(d * 2^r) ≡ n - 1 (mod n) for some 0 ≤ r < s, returning false in every
other case. -/
theorem spec_C5 (n a d s : Nat) (hodd : Odd n) (h2 : 2 < n) (hnU : n < U64)
    (ha : a < U64) (hd : Odd d) (hds : n - 1 = d * 2 ^ s) :
    (n < U32 → a < U32 →
      (smc_sprp32 n a = true ↔
        a % n = 0 ∨ a ^ d % n = 1 ∨ ∃ r < s, a ^ (d * 2 ^ r) % n = n - 1)) ∧
    (smc_mont_sprp64 n a (smc_mont_inv64 n) (smc_mont_one64 n) = true ↔
      a % n = 0 ∨ a ^ d % n = 1 ∨ ∃ r < s, a ^ (d * 2 ^ r) % n = n - 1) := by
  have hoddm : n % 2 = 1 := Nat.odd_iff.mp hodd
  obtain ⟨hd1, hd2⟩ := split2_spec (n - 1) (by omega)
  obtain ⟨hde, hse⟩ := odd_mul_pow_two_inj (split2 (n - 1)).1 d hd1
    (Nat.odd_iff.mp hd) (split2 (n - 1)).2 s (hd2.trans hds)
  constructor
  · intro hn32 _
    rw [← hde, ← hse]
    exact sprp32_iff n a (by omega) hoddm hn32
  · rw [← hde, ← hse]
    exact mont_sprp64_iff n a (by omega) hoddm hnU

theorem spec_C5_witness :
    Odd 13 ∧ 2 < 13 ∧ (13 : Nat) < U64 ∧ (2 : Nat) < U64 ∧ Odd 3 ∧
    (13 : Nat) - 1 = 3 * 2 ^ 2 ∧
    ((13 < U32 → 2 < U32 →
      (smc_sprp32 13 2 = true ↔
        2 % 13 = 0 ∨ 2 ^ 3 % 13 = 1 ∨ ∃ r < 2, 2 ^ (3 * 2 ^ r) % 13 = 13 - 1)) ∧
    (smc_mont_sprp64 13 2 (smc_mont_inv64 13) (smc_mont_one64 13) = true ↔
        2 % 13 = 0 ∨ 2 ^ 3 % 13 = 1 ∨ ∃ r < 2, 2 ^ (3 * 2 ^ r) % 13 = 13 - 1)) :=
  ⟨⟨6, rfl⟩, by norm_num, by decide, by decide, ⟨1, rfl⟩, by norm_num,
    spec_C5 13 2 3 2 ⟨6, rfl⟩ (by norm_num) (by decide) (by decide) ⟨1, rfl⟩
      (by norm_num)⟩

/-- C9: for every prime p representable in the chosen width,
smc_next_prime64 p = p and smc_prev_prime64 p = p, and likewise for the
32-bit variants: navigation is idempotent on primes. -/
theorem spec_C9 (p : Nat) (hp : Nat.Prime p) :
    (p < U32 → smc_next_prime32 p = p ∧ smc_prev_prime32 p = p) ∧
    (p < U64 → smc_next_prime64 p = p ∧ smc_prev_prime64 p = p) :=
  ⟨fun h => ⟨smc_next_prime32_idem p hp h, smc_prev_prime32_idem p hp h⟩,
   fun h => ⟨smc_next_prime64_idem p hp h, smc_prev_prime64_idem p hp h⟩⟩

theorem spec_C9_witness :
    Nat.Prime 101 ∧
    ((101 < U32 → smc_next_prime32 101 = 101 ∧ smc_prev_prime32 101 = 101) ∧
     (101 < U64 → smc_next_prime64 101 = 101 ∧ smc_prev_prime64 101 = 101)) :=
  ⟨by norm_num, spec_C9 101 (by norm_num)⟩

/-- C10: for every odd 64-bit n ≥ 3, smc_mont_one64 n = (2^64 - 1) mod n + 1
equals 2^64 mod n and lies in the range 1 .. n-1; consequently the value
neg_one = n - one computed by smc_mont_sprp64 is already below n and the
correction branch guarded by neg_one ≥ n is never taken. -/
theorem spec_C10 (n : Nat) (hodd : Odd n) (h3 : 3 ≤ n) (hnU : n < U64) :
    smc_mont_one64 n = U64 % n ∧ 1 ≤ smc_mont_one64 n ∧
    smc_mont_one64 n ≤ n - 1 ∧ ¬n - smc_mont_one64 n ≥ n ∧
    (if n - smc_mont_one64 n ≥ n then n - smc_mont_one64 n - n
     else n - smc_mont_one64 n) = n - smc_mont_one64 n := by
  obtain ⟨h1, h2, h4⟩ := mont_one64_spec n h3 (Nat.odd_iff.mp hodd)
  refine ⟨h1, h2, by omega, by omega, if_neg (by omega)⟩

theorem spec_C10_witness :
    Odd 13 ∧ 3 ≤ 13 ∧ (13 : Nat) < U64 ∧
    (smc_mont_one64 13 = U64 % 13 ∧ 1 ≤ smc_mont_one64 13 ∧
      smc_mont_one64 13 ≤ 13 - 1 ∧ ¬13 - smc_mont_one64 13 ≥ 13 ∧
      (if 13 - smc_mont_one64 13 ≥ 13 then 13 - smc_mont_one64 13 - 13
       else 13 - smc_mont_one64 13) = 13 - smc_mont_one64 13) :=
  ⟨⟨6, rfl⟩, by norm_num, by decide,
    spec_C10 13 ⟨6, rfl⟩ (by norm_num) (by decide)⟩

end SmcPrime
